import Mathlib

/-!
Verification development for the `uring_file` library (src/uring_file.py).

The development contains two shallow embeddings:

* `UringFile.Ring`: a trace-level model of the `Uring` class — submission of
  operations (`Uring._submit`, lines 71–76, via `submit_open_entry` /
  `submit_close_entry` / `submit_read_entry` / `submit_write_entry`) and the
  completion drain loop (`Uring.eventfd_callback`, lines 40–63).  The
  correlation table `self.store` is an association list from the submission's
  `user_data` key to the stored tuple `(request_type, future, *args)`; the
  future created by `_submit` is identified by its correlation key
  (`sqe.user_data = id(future)`; the store keeps the future alive for the whole
  in-flight lifetime, so keys of live entries are pairwise distinct and are
  modelled by a monotone counter).  A resolution `future.set_result(v)` is
  recorded by appending `(key, v)` to the `resolved` list.

* `UringFile.FileModel`: a pure functional model of the `File` class
  (lines 112–184) over an explicit file content, covering `read`, `close`,
  `readline` and the `__aiter__` line iteration, on the success path where
  every submitted kernel operation completes with the natural result for a
  regular file (the completion value delivered by the drain loop is the full
  pre-allocated buffer, see `Uring.eventfd_callback` line 56).

* `UringFile.Lifecycle`: a model of `Uring.cleanup` (lines 102–106), which
  unconditionally re-runs every teardown step; the external ring capability is
  only observed through counters of how often each primitive was invoked.
-/

namespace UringFile

namespace Ring

/-- `RequestType` enum, src/uring_file.py lines 12–16. -/
inductive RequestType where
  | OPEN
  | CLOSE
  | READ
  | WRITE
deriving DecidableEq

/-- The `*args` kept in a `self.store` entry (line 74): `OPEN` keeps the
encoded path bytes (line 82), `READ` keeps the destination `bytearray(size)`
(lines 91, 94) — modelled by its allocated size, since it is all zeros at
submission time — and `CLOSE`/`WRITE` keep nothing. -/
inductive Aux where
  | keepNothing
  | keepPath (p : List Nat)
  | keepBuf (size : Nat)
deriving DecidableEq

/-- A value passed to `future.set_result` in `eventfd_callback`
(lines 51–58): the descriptor number for `OPEN`, `None` for `CLOSE`/`WRITE`,
and the destination buffer object for `READ`. -/
inductive Value where
  | fd (n : Nat)
  | nothing
  | bytes (bs : List Nat)
deriving DecidableEq

/-- One entry of the correlation table `self.store`: the stored tuple
`(request_type, future, *args)` minus the future, which is identified with
the entry's key (`user_data = id(future)`, line 73). -/
structure Entry where
  kind : RequestType
  aux : Aux
deriving DecidableEq

/-- Contents of a READ destination buffer at drain time: the kernel has
written `written` into the front of the `bytearray(size)` allocated at
submission (line 91); the rest keeps its zero fill. -/
def fillBuf (aux : Aux) (written : List Nat) : List Nat :=
  match aux with
  | .keepBuf size => written.take size ++ List.replicate (size - written.length) 0
  | _ => written

/-- The value `eventfd_callback` passes to `future.set_result` for a
completion with non-negative result code `res` (lines 51–58).  Note the READ
arm delivers `args[0]` — the whole buffer — without consulting `res`. -/
def interpValue (e : Entry) (res : Nat) (written : List Nat) : Value :=
  match e.kind with
  | .OPEN => .fd res
  | .CLOSE => .nothing
  | .READ => .bytes (fillBuf e.aux written)
  | .WRITE => .nothing

/-- An event of an interleaved trace: a `submit_*` call, or one completion
becoming available to the drain loop.  A completion carries the echoed
`cqe.user_data` key, the raw result code `cqe.res`, and the bytes the kernel
wrote into the operation's destination buffer (empty for non-READ). -/
inductive Event where
  | submit (k : RequestType) (a : Aux)
  | complete (u : Nat) (res : Int) (written : List Nat)
deriving DecidableEq

/-- How a drain invocation can die: `liburing.trap_error(cqe.res)` raising
`OSError` on a negative result code (line 48), or `self.store[cqe.user_data]`
raising `KeyError` on an unknown correlation key (line 49). -/
inductive DrainError where
  | kernelFailure (res : Int)
  | unknownKey (u : Nat)
deriving DecidableEq

/-- The observable state of a `Uring` instance: the next fresh correlation
key, the correlation table `self.store`, and the log of resolutions performed
by `future.set_result`. -/
structure RingState where
  nextId : Nat
  store : List (Nat × Entry)
  resolved : List (Nat × Value)
deriving DecidableEq

def initState : RingState := ⟨0, [], []⟩

/-- `self.store[u]` lookup. -/
def lookupStore (u : Nat) : List (Nat × Entry) → Option Entry
  | [] => Option.none
  | (k, e) :: rest => if k = u then some e else lookupStore u rest

/-- `del self.store[u]` (line 62); keys are unique, so deleting the first
binding is deleting the binding. -/
def eraseStore (u : Nat) : List (Nat × Entry) → List (Nat × Entry)
  | [] => []
  | (k, e) :: rest => if k = u then rest else (k, e) :: eraseStore u rest

/-- `Uring._submit` (lines 71–76): create a fresh future, key the submission
slot by it, insert the correlation entry, hand the slot to the kernel. -/
def submitStep (k : RequestType) (a : Aux) (s : RingState) : RingState :=
  { nextId := s.nextId + 1
    store := (s.nextId, ⟨k, a⟩) :: s.store
    resolved := s.resolved }

/-- One iteration of the drain loop in `eventfd_callback` (lines 47–63):
`trap_error` first (raises on a negative code), then the store lookup by the
echoed key, then `set_result` with the kind-directed value, then entry
removal. -/
def drainOne (u : Nat) (res : Int) (written : List Nat) (s : RingState) :
    Except DrainError RingState :=
  if res < 0 then .error (.kernelFailure res)
  else
    match lookupStore u s.store with
    | Option.none => .error (.unknownKey u)
    | some e =>
      .ok { nextId := s.nextId
            store := eraseStore u s.store
            resolved := (u, interpValue e res.toNat written) :: s.resolved }

def step (s : RingState) (ev : Event) : Except DrainError RingState :=
  match ev with
  | .submit k a => .ok (submitStep k a s)
  | .complete u res w => drainOne u res w s

/-- Run a whole interleaved trace of submissions and completions. -/
def runE : List Event → RingState → Except DrainError RingState
  | [], s => .ok s
  | ev :: rest, s =>
    match step s ev with
    | .ok next => runE rest next
    | .error e => .error e

/-- Number of `submit` events: the counter of fresh correlation keys. -/
def countSubmits : List Event → Nat
  | [] => 0
  | .submit _ _ :: rest => countSubmits rest + 1
  | .complete _ _ _ :: rest => countSubmits rest

/-- Number of completion events carrying key `u`. -/
def countComplete (u : Nat) : List Event → Nat
  | [] => 0
  | .complete v _ _ :: rest => (if v = u then 1 else 0) + countComplete u rest
  | .submit _ _ :: rest => countComplete u rest

/-- The correlation entry that the trace's `n`-th-fresh-key discipline assigns
to key `u`, starting the counter at `n`. -/
def assignedEntry : List Event → Nat → Nat → Option Entry
  | [], _, _ => Option.none
  | .submit k a :: rest, n, u =>
      if n = u then some ⟨k, a⟩ else assignedEntry rest (n + 1) u
  | .complete _ _ _ :: rest, n, u => assignedEntry rest n u

def keysOf {α : Type} (l : List (Nat × α)) : List Nat := l.map Prod.fst

/-- A concrete interleaved trace and its final state, used as the C1
witness input. -/
def trC1 : List Event :=
  [.submit .READ (.keepBuf 2), .submit .OPEN (.keepPath [97]),
   .complete 1 3 [], .complete 0 1 [7]]

def sC1 : RingState := ⟨2, [], [(0, .bytes [7, 0]), (1, .fd 3)]⟩

@[simp]
theorem keysOf_nil {α : Type} : keysOf ([] : List (Nat × α)) = [] := rfl

@[simp]
theorem keysOf_cons {α : Type} (p : Nat × α) (l : List (Nat × α)) :
    keysOf (p :: l) = p.1 :: keysOf l := rfl

theorem lookupStore_mem_keys {u : Nat} {st : List (Nat × Entry)} {e : Entry}
    (h : lookupStore u st = some e) : u ∈ keysOf st := by
  induction st with
  | nil => simp [lookupStore] at h
  | cons p rest ih =>
    obtain ⟨k, e0⟩ := p
    by_cases hk : k = u
    · simp [hk]
    · simp only [lookupStore, if_neg hk] at h
      simp only [keysOf_cons, List.mem_cons]
      exact Or.inr (ih h)

theorem mem_keysOf_of_mem_eraseStore {v u : Nat} {st : List (Nat × Entry)}
    (h : v ∈ keysOf (eraseStore u st)) : v ∈ keysOf st := by
  induction st with
  | nil => simp [eraseStore] at h
  | cons p rest ih =>
    obtain ⟨k, e0⟩ := p
    by_cases hk : k = u
    · simp only [eraseStore, if_pos hk] at h
      simp only [keysOf_cons, List.mem_cons]
      exact Or.inr h
    · simp only [eraseStore, if_neg hk, keysOf_cons, List.mem_cons] at h ⊢
      rcases h with h | h
      · exact Or.inl h
      · exact Or.inr (ih h)

theorem nodup_keysOf_eraseStore {u : Nat} {st : List (Nat × Entry)}
    (h : (keysOf st).Nodup) : (keysOf (eraseStore u st)).Nodup := by
  induction st with
  | nil => simp [eraseStore]
  | cons p rest ih =>
    obtain ⟨k, e0⟩ := p
    simp only [keysOf_cons, List.nodup_cons] at h
    by_cases hk : k = u
    · simpa [eraseStore, if_pos hk] using h.2
    · simp only [eraseStore, if_neg hk, keysOf_cons, List.nodup_cons]
      exact ⟨fun hm => h.1 (mem_keysOf_of_mem_eraseStore hm), ih h.2⟩

theorem not_mem_keysOf_eraseStore {u : Nat} {st : List (Nat × Entry)}
    (h : (keysOf st).Nodup) : u ∉ keysOf (eraseStore u st) := by
  induction st with
  | nil => simp [eraseStore]
  | cons p rest ih =>
    obtain ⟨k, e0⟩ := p
    simp only [keysOf_cons, List.nodup_cons] at h
    by_cases hk : k = u
    · subst hk
      simpa [eraseStore] using h.1
    · simp only [eraseStore, if_neg hk, keysOf_cons, List.mem_cons]
      rintro (rfl | hm)
      · exact hk rfl
      · exact ih h.2 hm

theorem lookupStore_eraseStore_ne {v u : Nat} {st : List (Nat × Entry)}
    (h : v ≠ u) : lookupStore v (eraseStore u st) = lookupStore v st := by
  induction st with
  | nil => rfl
  | cons p rest ih =>
    obtain ⟨k, e0⟩ := p
    by_cases hk : k = u
    · subst hk
      have hkv : ¬(k = v) := fun hh => h hh.symm
      simp [eraseStore, lookupStore, hkv]
    · by_cases hv : k = v
      · simp only [eraseStore, if_neg hk, lookupStore, if_pos hv]
      · simp only [eraseStore, if_neg hk, lookupStore, if_neg hv]
        exact ih

@[simp]
theorem countSubmits_append (xs ys : List Event) :
    countSubmits (xs ++ ys) = countSubmits xs + countSubmits ys := by
  induction xs with
  | nil => simp [countSubmits]
  | cons ev rest ih =>
    cases ev with
    | submit k a =>
      simp [countSubmits, ih]
      omega
    | complete u r w => simp [countSubmits, ih]

@[simp]
theorem countComplete_append (u : Nat) (xs ys : List Event) :
    countComplete u (xs ++ ys) = countComplete u xs + countComplete u ys := by
  induction xs with
  | nil => simp [countComplete]
  | cons ev rest ih =>
    cases ev with
    | submit k a => simp [countComplete, ih]
    | complete v r w =>
      simp [countComplete, ih]
      omega

theorem assignedEntry_append_some {xs : List Event} {n u : Nat} {e : Entry}
    (ys : List Event) (h : assignedEntry xs n u = some e) :
    assignedEntry (xs ++ ys) n u = some e := by
  induction xs generalizing n with
  | nil => simp [assignedEntry] at h
  | cons ev rest ih =>
    cases ev with
    | submit k a =>
      by_cases hn : n = u
      · simpa [assignedEntry, hn] using h
      · simp only [assignedEntry, if_neg hn] at h ⊢
        exact ih h
    | complete v r w =>
      simp only [assignedEntry] at h ⊢
      exact ih h

theorem assignedEntry_append_none {xs : List Event} {n u : Nat}
    (ys : List Event) (h : assignedEntry xs n u = Option.none) :
    assignedEntry (xs ++ ys) n u = assignedEntry ys (n + countSubmits xs) u := by
  induction xs generalizing n with
  | nil => simp [countSubmits]
  | cons ev rest ih =>
    cases ev with
    | submit k a =>
      by_cases hn : n = u
      · simp [assignedEntry, hn] at h
      · simp only [List.cons_append, assignedEntry, if_neg hn] at h ⊢
        have h3 : countSubmits (Event.submit k a :: rest) = countSubmits rest + 1 := rfl
        rw [h3]
        have h4 : n + (countSubmits rest + 1) = (n + 1) + countSubmits rest := by omega
        rw [h4]
        exact ih h
    | complete v r w =>
      simp only [assignedEntry, countSubmits] at h ⊢
      exact ih h

theorem assignedEntry_none_of_le {xs : List Event} {n u : Nat}
    (h : n + countSubmits xs ≤ u) : assignedEntry xs n u = Option.none := by
  induction xs generalizing n with
  | nil => rfl
  | cons ev rest ih =>
    cases ev with
    | submit k a =>
      simp only [countSubmits] at h
      have hn : n ≠ u := by omega
      simp only [assignedEntry, if_neg hn]
      exact ih (by omega)
    | complete v r w =>
      simp only [countSubmits] at h
      exact ih h

theorem lookupStore_eq_none_of_not_mem {u : Nat} {st : List (Nat × Entry)}
    (h : u ∉ keysOf st) : lookupStore u st = Option.none := by
  induction st with
  | nil => rfl
  | cons p rest ih =>
    obtain ⟨k, e0⟩ := p
    simp only [keysOf_cons, List.mem_cons] at h
    push_neg at h
    simp only [lookupStore, if_neg (fun hh : k = u => h.1 hh.symm)]
    exact ih h.2

/-- Inversion of one successful drain-loop iteration: the result code was
non-negative, the echoed key was in the correlation table, and the new state
records the kind-directed resolution and drops the entry. -/
theorem drainOne_ok_inversion {u : Nat} {res : Int} {w : List Nat}
    {s s' : RingState} (h : drainOne u res w s = .ok s') :
    ∃ e, 0 ≤ res ∧ lookupStore u s.store = some e ∧
      s' = { nextId := s.nextId, store := eraseStore u s.store,
             resolved := (u, interpValue e res.toNat w) :: s.resolved } := by
  unfold drainOne at h
  by_cases hr : res < 0
  · simp [hr] at h
  · simp only [if_neg hr] at h
    cases hl : lookupStore u s.store with
    | none => rw [hl] at h; simp at h
    | some e =>
      rw [hl] at h
      simp only [Except.ok.injEq] at h
      exact ⟨e, by omega, rfl, h.symm⟩

/-- Inductive invariant tying a `RingState` to the successfully processed
trace prefix `pre` that produced it. -/
structure Inv (pre : List Event) (s : RingState) : Prop where
  nextEq : s.nextId = countSubmits pre
  keysLt : ∀ u ∈ keysOf s.store ++ keysOf s.resolved, u < s.nextId
  nodupKeys : (keysOf s.store ++ keysOf s.resolved).Nodup
  storeAssigned : ∀ u e, lookupStore u s.store = some e →
      assignedEntry pre 0 u = some e
  resolvedOk : ∀ u v, (u, v) ∈ s.resolved → ∃ e res w,
      assignedEntry pre 0 u = some e ∧ Event.complete u res w ∈ pre ∧
      0 ≤ res ∧ v = interpValue e res.toNat w
  completeCount : ∀ u, countComplete u pre =
      if u ∈ keysOf s.resolved then 1 else 0

theorem inv_init : Inv [] initState := by
  refine ⟨rfl, ?_, ?_, ?_, ?_, ?_⟩
  · intro u hu
    simp [initState] at hu
  · simp [initState]
  · intro u e h
    simp [initState, lookupStore] at h
  · intro u v h
    simp [initState] at h
  · intro u
    simp [initState, countComplete]

theorem step_inv (pre : List Event) (s s' : RingState) (ev : Event)
    (hInv : Inv pre s) (h : step s ev = .ok s') : Inv (pre ++ [ev]) s' := by
  cases ev with
  | submit k a =>
    simp only [step, Except.ok.injEq] at h
    subst h
    obtain ⟨nextEq, keysLt, nodupKeys, storeAssigned, resolvedOk, completeCount⟩ := hInv
    have hfresh : assignedEntry pre 0 s.nextId = Option.none :=
      assignedEntry_none_of_le (by omega)
    have hext : assignedEntry (pre ++ [Event.submit k a]) 0 s.nextId = some ⟨k, a⟩ := by
      rw [assignedEntry_append_none _ hfresh]
      simp [assignedEntry, nextEq]
    refine ⟨?_, ?_, ?_, ?_, ?_, ?_⟩
    · have h1 : countSubmits [Event.submit k a] = 1 := rfl
      simp only [submitStep, countSubmits_append, h1, nextEq]
    · intro u hu
      simp only [submitStep, keysOf_cons, List.cons_append, List.mem_cons] at hu
      rcases hu with rfl | hu
      · simp only [submitStep]
        omega
      · simp only [submitStep]
        exact Nat.lt_succ_of_lt (keysLt u hu)
    · simp only [submitStep, keysOf_cons, List.cons_append, List.nodup_cons]
      exact ⟨fun hm => absurd (keysLt _ hm) (by omega), nodupKeys⟩
    · intro u e hl
      simp only [submitStep] at hl
      by_cases hu : s.nextId = u
      · subst hu
        simp only [lookupStore, if_pos rfl, Option.some.injEq] at hl
        rw [← hl]
        exact hext
      · simp only [lookupStore, if_neg hu] at hl
        exact assignedEntry_append_some _ (storeAssigned u e hl)
    · intro u v huv
      simp only [submitStep] at huv
      obtain ⟨e, res, w, ha, hm, hr, hv⟩ := resolvedOk u v huv
      exact ⟨e, res, w, assignedEntry_append_some _ ha,
        List.mem_append_left _ hm, hr, hv⟩
    · intro u
      simp only [submitStep, countComplete_append]
      have h0 : countComplete u [Event.submit k a] = 0 := rfl
      rw [h0, completeCount u, Nat.add_zero]
  | complete u res w =>
    simp only [step] at h
    obtain ⟨e, hres, hfound, hs'⟩ := drainOne_ok_inversion h
    subst hs'
    obtain ⟨nextEq, keysLt, nodupKeys, storeAssigned, resolvedOk, completeCount⟩ := hInv
    have humem : u ∈ keysOf s.store := lookupStore_mem_keys hfound
    have hnd := List.nodup_append.mp nodupKeys
    have hdisj : (keysOf s.store).Disjoint (keysOf s.resolved) := hnd.2.2
    have hunres : u ∉ keysOf s.resolved := hdisj humem
    have hassigned : assignedEntry pre 0 u = some e := storeAssigned u e hfound
    have hext : assignedEntry (pre ++ [Event.complete u res w]) 0 u = some e :=
      assignedEntry_append_some _ hassigned
    have hcc : ∀ v, countComplete v [Event.complete u res w] =
        if u = v then 1 else 0 := by
      intro v
      simp [countComplete]
    refine ⟨?_, ?_, ?_, ?_, ?_, ?_⟩
    · simpa [countSubmits] using nextEq
    · intro v hv
      simp only [keysOf_cons, List.mem_append, List.mem_cons] at hv
      rcases hv with hv | rfl | hv
      · exact keysLt v (List.mem_append_left _ (mem_keysOf_of_mem_eraseStore hv))
      · exact keysLt v (List.mem_append_left _ humem)
      · exact keysLt v (List.mem_append_right _ hv)
    · rw [List.nodup_append]
      refine ⟨nodup_keysOf_eraseStore hnd.1, ?_, ?_⟩
      · simp only [keysOf_cons, List.nodup_cons]
        exact ⟨hunres, hnd.2.1⟩
      · intro v hv hmem
        have hv' : v ∈ keysOf s.store := mem_keysOf_of_mem_eraseStore hv
        have hvne : v ≠ u := by
          rintro rfl
          exact not_mem_keysOf_eraseStore hnd.1 hv
        simp only [keysOf_cons, List.mem_cons] at hmem
        rcases hmem with rfl | hmem
        · exact hvne rfl
        · exact hdisj hv' hmem
    · intro v e' hl
      by_cases hv : v = u
      · subst hv
        rw [lookupStore_eq_none_of_not_mem (not_mem_keysOf_eraseStore hnd.1)] at hl
        exact absurd hl (by simp)
      · rw [lookupStore_eraseStore_ne hv] at hl
        exact assignedEntry_append_some _ (storeAssigned v e' hl)
    · intro v val hval
      simp only [List.mem_cons, Prod.mk.injEq] at hval
      rcases hval with ⟨rfl, rfl⟩ | hval
      · exact ⟨e, res, w, hext, List.mem_append_right _ (by simp), hres, rfl⟩
      · obtain ⟨e', res', w', ha, hm, hr, hvv⟩ := resolvedOk v val hval
        exact ⟨e', res', w', assignedEntry_append_some _ ha,
          List.mem_append_left _ hm, hr, hvv⟩
    · intro v
      rw [countComplete_append, hcc v, completeCount v]
      show (if v ∈ keysOf s.resolved then 1 else 0) + (if u = v then 1 else 0) =
        if v ∈ keysOf ((u, interpValue e res.toNat w) :: s.resolved) then 1 else 0
      simp only [keysOf_cons, List.mem_cons]
      by_cases hv : u = v
      · subst hv
        rw [if_neg hunres, if_pos (Or.inl rfl), if_pos rfl]
      · rw [if_neg hv, Nat.add_zero]
        by_cases hvr : v ∈ keysOf s.resolved
        · rw [if_pos hvr, if_pos (Or.inr hvr)]
        · have hnm : ¬(v = u ∨ v ∈ keysOf s.resolved) := by
            rintro (rfl | hm)
            · exact hv rfl
            · exact hvr hm
          rw [if_neg hvr, if_neg hnm]

theorem runE_inv : ∀ (tr pre : List Event) (s0 s : RingState),
    Inv pre s0 → runE tr s0 = .ok s → Inv (pre ++ tr) s := by
  intro tr
  induction tr with
  | nil =>
    intro pre s0 s h hr
    simp only [runE, Except.ok.injEq] at hr
    subst hr
    simpa using h
  | cons ev rest ih =>
    intro pre s0 s h hr
    unfold runE at hr
    cases hs : step s0 ev with
    | error e => rw [hs] at hr; simp at hr
    | ok s1 =>
      rw [hs] at hr
      have h1 := step_inv pre s0 s1 ev h hs
      have h2 := ih (pre ++ [ev]) s1 s h1 hr
      rw [List.append_assoc] at h2
      exact h2

/-- **C1.** For every sequence of interleaved submissions and completions that
the drain loop processes without raising, each Operation Result Token (each
correlation key's future) is resolved exactly once — the resolved keys are
pairwise distinct and a key is resolved iff its completion occurred — and it
is resolved with the outcome computed from its own submission's entry (kind
and auxiliary data, matched via the correlation key echoed back by the ring)
and its own completion's result, never another operation's. -/
theorem c1_each_token_resolves_once_with_own_outcome
    (tr : List Event) (s : RingState) (h : runE tr initState = .ok s) :
    (keysOf s.resolved).Nodup ∧
    (∀ u v, (u, v) ∈ s.resolved →
      countComplete u tr = 1 ∧
      ∃ e res w, assignedEntry tr 0 u = some e ∧
        Event.complete u res w ∈ tr ∧ 0 ≤ res ∧
        v = interpValue e res.toNat w) ∧
    (∀ u, u ∉ keysOf s.resolved → countComplete u tr = 0) := by
  have hInv := runE_inv tr [] initState s inv_init h
  simp only [List.nil_append] at hInv
  refine ⟨?_, ?_, ?_⟩
  · exact (List.nodup_append.mp hInv.nodupKeys).2.1
  · intro u v huv
    have hu : u ∈ keysOf s.resolved := by
      simp only [keysOf, List.mem_map]
      exact ⟨(u, v), huv, rfl⟩
    refine ⟨?_, hInv.resolvedOk u v huv⟩
    have hc := hInv.completeCount u
    rwa [if_pos hu] at hc
  · intro u hu
    have hc := hInv.completeCount u
    rwa [if_neg hu] at hc

theorem c1_witness :
    (keysOf sC1.resolved).Nodup ∧
    (∀ u v, (u, v) ∈ sC1.resolved →
      countComplete u trC1 = 1 ∧
      ∃ e res w, assignedEntry trC1 0 u = some e ∧
        Event.complete u res w ∈ trC1 ∧ 0 ≤ res ∧
        v = interpValue e res.toNat w) ∧
    (∀ u, u ∉ keysOf sC1.resolved → countComplete u trC1 = 0) :=
  c1_each_token_resolves_once_with_own_outcome trC1 sC1 (by rfl)

/-- **C2**, counterexample.  A completion whose raw result code is negative
does not get converted into a resolution of its token: `trap_error` raises
inside the callback (line 48), the run aborts with that error, the token of
the failed operation is never resolved, and the later completion of the other
operation is never drained — contradicting `the drain step converts it into a
typed failure … and resolves the corresponding Operation Result Token with
that failure … and draining of the remaining completions is not disrupted`. -/
theorem c2_counterexample :
    runE [.submit .OPEN (.keepPath [97]), .submit .CLOSE .keepNothing,
          .complete 0 (-2) [], .complete 1 0 []] initState =
      .error (.kernelFailure (-2)) := by
  rfl

/-- **C2**, amended.  For every completion whose raw result code is negative,
the drain step raises a typed error carrying the raw code (`OSError` from
`liburing.trap_error`, line 48) inside the readiness callback: the
corresponding token is left unresolved and no later event of the trace —
in particular no remaining completion — is processed in that run. -/
theorem c2_negative_result_raises_in_callback
    (s : RingState) (u : Nat) (res : Int) (w : List Nat) (rest : List Event)
    (h : res < 0) :
    runE (Event.complete u res w :: rest) s = .error (.kernelFailure res) := by
  simp [runE, step, drainOne, if_pos h]

theorem c2_witness :
    runE (Event.complete 0 (-2) [] :: []) initState =
      .error (.kernelFailure (-2)) :=
  c2_negative_result_raises_in_callback initState 0 (-2) [] [] (by decide)

/-- **C3**, counterexample.  A READ completion that reports 1 byte actually
transferred into a 2-byte destination buffer resolves its token with the full
2-byte buffer `[7, 0]` (`future.set_result(args[0])`, line 56), not with the
1-byte truncation `[7]` the claim requires. -/
theorem c3_counterexample :
    runE [.submit .READ (.keepBuf 2), .complete 0 1 [7]] initState =
      .ok ⟨1, [], [(0, Value.bytes [7, 0])]⟩ ∧
    Value.bytes [7, 0] ≠ Value.bytes [7] := by
  exact ⟨by rfl, by decide⟩

/-- **C3**, amended.  For every READ completion with a non-negative result
code, the value delivered to the awaiting token is the full pre-allocated
destination buffer of the requested size — the bytes the kernel transferred
followed by the buffer's remaining zero fill — whose length is the requested
size, not the number of bytes the completion reports as transferred. -/
theorem c3_read_delivers_full_buffer
    (s : RingState) (u : Nat) (res : Int) (w : List Nat) (size : Nat)
    (hfound : lookupStore u s.store = some ⟨.READ, .keepBuf size⟩)
    (hres : 0 ≤ res) (hw : w.length ≤ size) :
    drainOne u res w s = .ok
      { nextId := s.nextId, store := eraseStore u s.store,
        resolved := (u, .bytes (w ++ List.replicate (size - w.length) 0)) ::
          s.resolved } ∧
    (w ++ List.replicate (size - w.length) 0).length = size := by
  constructor
  · unfold drainOne
    rw [if_neg (by omega), hfound]
    simp [interpValue, fillBuf, List.take_of_length_le hw]
  · simp only [List.length_append, List.length_replicate]
    omega

theorem c3_witness :
    drainOne 0 1 [7] ⟨1, [(0, ⟨.READ, .keepBuf 2⟩)], []⟩ =
      .ok ⟨1, [], [(0, Value.bytes [7, 0])]⟩ ∧
    (([7] : List Nat) ++ List.replicate (2 - List.length [7]) 0).length = 2 :=
  c3_read_delivers_full_buffer ⟨1, [(0, ⟨.READ, .keepBuf 2⟩)], []⟩ 0 1 [7] 2
    (by decide) (by decide) (by decide)

end Ring

namespace Lifecycle

/-- Observable lifecycle state of a `Uring` instance for `cleanup`
(src/uring_file.py lines 102–106).  The external ring and scheduler
capabilities (`liburing.io_uring_unregister_eventfd`,
`liburing.io_uring_queue_exit`, `loop.remove_reader`) are observed purely
through counters of how many times each primitive has been invoked, plus the
`_setup_done` flag that `setup` sets and `cleanup` resets. -/
structure UState where
  setupDone : Bool
  unregisterCount : Nat
  releaseCount : Nat
  readerRemovedCount : Nat
deriving DecidableEq

/-- `Uring.cleanup` (lines 102–106).  The body is unconditional: it never
consults `_setup_done` (it only resets it), so every call re-invokes
`io_uring_unregister_eventfd`, `io_uring_queue_exit` (the release of the ring
resource) and `loop.remove_reader`. -/
def cleanup (s : UState) : UState :=
  { setupDone := false
    unregisterCount := s.unregisterCount + 1
    releaseCount := s.releaseCount + 1
    readerRemovedCount := s.readerRemovedCount + 1 }

/-- The state right after `setup` has run (lines 29–38): setup flag set, no
teardown primitive invoked yet. -/
def afterSetup : UState := ⟨true, 0, 0, 0⟩

/-- **C9**, counterexample.  Calling `cleanup` a second time after it has
already torn the ring down releases the ring resource again: starting from
the freshly set-up state, two `cleanup` calls invoke `io_uring_queue_exit`
twice (and `io_uring_unregister_eventfd` twice, on an already-released ring),
contradicting `does not double-release the ring resource`. -/
theorem c9_counterexample :
    (cleanup (cleanup afterSetup)).releaseCount = 2 ∧
    (cleanup afterSetup).releaseCount = 1 := by
  decide

/-- **C9**, amended.  `cleanup` is not idempotent: it resets the `_setup_done`
flag, but its body has no already-torn-down guard, so a second call re-invokes
every teardown primitive — in particular it releases the ring resource a
second time (and re-runs eventfd unregistration on the released ring, which
raises from the ring capability). -/
theorem c9_cleanup_not_idempotent_double_release (s : UState) :
    (cleanup s).setupDone = false ∧
    (cleanup (cleanup s)).releaseCount = s.releaseCount + 2 ∧
    (cleanup (cleanup s)).unregisterCount = s.unregisterCount + 2 := by
  refine ⟨rfl, ?_, ?_⟩ <;> simp [cleanup]

end Lifecycle

namespace FileModel

/-- The `File` object (src/uring_file.py lines 112–117): path, optional open
descriptor (`None` when closed), byte offset cursor.  The model works over an
explicit file `content` and assumes the success path of the default ring
(every submitted kernel operation completes and its value is delivered as in
`Uring.eventfd_callback`). -/
@[ext]
structure File where
  fpath : List Nat
  fd : Option Nat
  offset : Int
deriving DecidableEq

/-- `File.open` (lines 119–139) on the success path, `newFd` being the
descriptor the OPEN completion resolves with: `assert self._fd is None`, then
store the descriptor.  `Option.none` models the assertion failing. -/
def fileOpen (f : File) (newFd : Nat) : Option File :=
  match f.fd with
  | some _ => Option.none
  | Option.none => some { f with fd := some newFd }

/-- `File.close` (lines 141–145): `assert self._fd is not None`
(`Option.none` models the assertion failing), submit CLOSE and await it
(success path: the CLOSE completion resolves with `None`), reset the offset
to zero, clear the descriptor. -/
def fileClose (f : File) : Option File :=
  match f.fd with
  | Option.none => Option.none
  | some _ => some { f with fd := Option.none, offset := 0 }

/-- `File.read` (lines 147–159) over file content `content`: assert the
descriptor is open, stat the file size, default an unspecified size to it,
clamp to `fsize - offset`, short-circuit with `b''` when the clamp is ≤ 0,
otherwise submit a READ of the clamped size at the current offset, await it
and advance the offset by the length of the delivered buffer.

Returns `(data, handle, submissions)` where `submissions` counts ring
submissions performed by the call (0 on the short-circuit path, 1 otherwise).
`Option.none` models a raised exception: the assert on a closed handle, or a
read submitted at a negative offset, which the kernel fails and the callback
then raises without resolving the future.  On the success path the READ
future resolves with the full `bytearray(size)` (line 56); `size` was clamped
to at most `fsize - offset`, so the kernel fills the buffer completely and it
equals the content slice starting at `offset`. -/
def fileRead (content : List Nat) (f : File) (size : Option Int) :
    Option (List Nat × File × Nat) :=
  match f.fd with
  | Option.none => Option.none
  | some _ =>
    let fsize : Int := content.length
    let size0 : Int := size.getD fsize
    let size1 : Int := min size0 (fsize - f.offset)
    if size1 ≤ 0 then some ([], f, 0)
    else if f.offset < 0 then Option.none
    else
      let data := (content.drop f.offset.toNat).take size1.toNat
      some (data, { f with offset := f.offset + data.length }, 1)

/-- `chunk.find(b'\n')` (line 164), as an index option instead of `-1`. -/
def nlIdx : List Nat → Option Nat
  | [] => Option.none
  | b :: bs => if b = 10 then some 0 else (nlIdx bs).map (· + 1)

/-- The loop of `File.readline` (lines 161–170), with `line` the accumulator
and explicit fuel (the loop consumes at least one byte of the remaining
content per iteration, so `content.length + 1` fuel is always enough;
running out yields `Option.none`, which no reachable call does). -/
def readlineAux (content : List Nat) : Nat → List Nat → File → Option (List Nat × File)
  | 0, _, _ => Option.none
  | fuel + 1, line, f =>
    match fileRead content f (some 32) with
    | Option.none => Option.none
    | some (chunk, f2, _) =>
      if chunk = [] then some (line, f2)
      else
        match nlIdx chunk with
        | some nl =>
          some (line ++ chunk.take nl,
            { f2 with offset := f2.offset + ((nl : Int) + 1 - chunk.length) })
        | Option.none => readlineAux content fuel (line ++ chunk) f2

/-- `File.readline` (lines 161–170): repeatedly read 32-byte chunks into a
line buffer until a chunk holds a newline (append the part before it, move
the offset back to one byte past the newline, return) or a read comes back
empty (return the accumulated buffer). -/
def readline (content : List Nat) (f : File) : Option (List Nat × File) :=
  readlineAux content (content.length + 1) [] f

/-- The loop of `File.__aiter__` (lines 172–174) with explicit fuel: yield
successive `readline` results until one is empty. -/
def iterLinesAux (content : List Nat) : Nat → File → Option (List (List Nat))
  | 0, _ => Option.none
  | fuel + 1, f =>
    match readline content f with
    | Option.none => Option.none
    | some (l, f2) =>
      if l = [] then some []
      else (iterLinesAux content fuel f2).map (l :: ·)

/-- `File.__aiter__` (lines 172–174): the list of lines the async iteration
yields (each yielded line consumes at least one byte, so `content.length + 1`
fuel is always enough). -/
def iterLines (content : List Nat) (f : File) : Option (List (List Nat)) :=
  iterLinesAux content (content.length + 1) f

/-- Split a byte sequence at every newline (like Python `bytes.split(b'\n')`):
`splitNl [104, 10, 119] = [[104], [119]]`, `splitNl [] = [[]]`. -/
def splitNl : List Nat → List (List Nat)
  | [] => [[]]
  | b :: bs =>
    if b = 10 then [] :: splitNl bs
    else
      match splitNl bs with
      | l :: ls => (b :: l) :: ls
      | [] => [[b]]

/-- The line `readline` extracts from the remaining content `rest`: the bytes
before the first newline, or all of `rest` if it has none. -/
def lineOf (rest : List Nat) : List Nat :=
  match nlIdx rest with
  | some i => rest.take i
  | Option.none => rest

/-- The net cursor advance `readline` performs on remaining content `rest`:
one byte past the first newline, or all of `rest` if it has none. -/
def lineAdv (rest : List Nat) : Int :=
  match nlIdx rest with
  | some i => (i : Int) + 1
  | Option.none => (rest.length : Int)

/-- What the iteration keeps of the sequence of lines: every line up to (and
excluding) the first empty one — an empty `readline` result ends the loop in
`File.__aiter__` (line 173). -/
def takeNonEmpty : List (List Nat) → List (List Nat)
  | [] => []
  | l :: ls => if l = [] then [] else l :: takeNonEmpty ls

/-- The example file content `b"hello\nworld"` (src/example.py line 10). -/
def contentHW : List Nat := [104, 101, 108, 108, 111, 10, 119, 111, 114, 108, 100]

theorem fileRead_shortcircuit (content : List Nat) (f : File) (sz : Option Int)
    (fd : Nat) (hfd : f.fd = some fd)
    (h : min (sz.getD (content.length : Int)) ((content.length : Int) - f.offset) ≤ 0) :
    fileRead content f sz = some ([], f, 0) := by
  unfold fileRead
  rw [hfd]
  simp only [if_pos h]

theorem fileRead_submits (content : List Nat) (f : File) (sz : Int) (fd : Nat)
    (hfd : f.fd = some fd) (h0 : 0 ≤ f.offset)
    (h : 0 < min sz ((content.length : Int) - f.offset)) :
    fileRead content f (some sz) =
      some ((content.drop f.offset.toNat).take
          (min sz ((content.length : Int) - f.offset)).toNat,
        { f with offset := f.offset + min sz ((content.length : Int) - f.offset) },
        1) := by
  unfold fileRead
  rw [hfd]
  simp only [Option.getD_some]
  rw [if_neg (by omega), if_neg (by omega)]
  have hlen : ((content.drop f.offset.toNat).take
      (min sz ((content.length : Int) - f.offset)).toNat).length =
      (min sz ((content.length : Int) - f.offset)).toNat := by
    rw [List.length_take, List.length_drop]
    omega
  rw [hlen]
  have hcast : ((min sz ((content.length : Int) - f.offset)).toNat : Int) =
      min sz ((content.length : Int) - f.offset) := Int.toNat_of_nonneg (by omega)
  rw [hcast]

/-- **C4.** For every open `File` handle with a cursor inside the file,
`read` clamps the requested size to `remaining = total_size - offset`: an
unspecified size defaults to the stat-reported file size, so an
unspecified-size read returns exactly `file_size - current_offset` bytes (the
content from the cursor to the end); an explicit size returns
`max 0 (min size remaining)` bytes; and whenever the clamped size is ≤ 0 —
in particular when `offset = file_size` — the call returns an empty result
with zero ring submissions and the handle unchanged. -/
theorem c4_read_clamps_and_shortcircuits (content : List Nat) (f : File)
    (fd : Nat) (hfd : f.fd = some fd) (h0 : 0 ≤ f.offset)
    (h1 : f.offset ≤ (content.length : Int)) :
    (∃ f2 n, fileRead content f Option.none =
        some (content.drop f.offset.toNat, f2, n) ∧
      ((content.drop f.offset.toNat).length : Int) =
        (content.length : Int) - f.offset) ∧
    (∀ sz : Int, ∃ d f2 n, fileRead content f (some sz) = some (d, f2, n) ∧
      (d.length : Int) = max 0 (min sz ((content.length : Int) - f.offset))) ∧
    (∀ sz : Option Int,
      min (sz.getD (content.length : Int)) ((content.length : Int) - f.offset) ≤ 0 →
      fileRead content f sz = some ([], f, 0)) := by
  have hdlen : ((content.drop f.offset.toNat).length : Int) =
      (content.length : Int) - f.offset := by
    rw [List.length_drop]
    omega
  refine ⟨?_, ?_, ?_⟩
  · by_cases heof : f.offset = (content.length : Int)
    · refine ⟨f, 0, ?_, hdlen⟩
      have hempty : content.drop f.offset.toNat = [] :=
        List.drop_eq_nil_of_le (by omega)
      rw [hempty]
      exact fileRead_shortcircuit content f Option.none fd hfd (by simp; omega)
    · have h2 := fileRead_submits content f (content.length : Int) fd hfd h0 (by omega)
      have htake : (content.drop f.offset.toNat).take
          (min (content.length : Int) ((content.length : Int) - f.offset)).toNat =
          content.drop f.offset.toNat := by
        apply List.take_of_length_le
        rw [List.length_drop]
        omega
      have hdef : fileRead content f Option.none =
          fileRead content f (some (content.length : Int)) := rfl
      rw [htake] at h2
      exact ⟨_, _, hdef.trans h2, hdlen⟩
  · intro sz
    by_cases hpos : 0 < min sz ((content.length : Int) - f.offset)
    · refine ⟨_, _, _, fileRead_submits content f sz fd hfd h0 hpos, ?_⟩
      rw [List.length_take, List.length_drop]
      omega
    · refine ⟨[], f, 0, fileRead_shortcircuit content f (some sz) fd hfd (by simp; omega), ?_⟩
      simp only [List.length_nil, Nat.cast_zero]
      omega
  · intro sz hle
    exact fileRead_shortcircuit content f sz fd hfd hle

theorem c4_witness :
    (∃ f2 n, fileRead [1, 2, 3] ⟨[], some 5, 1⟩ Option.none =
        some (List.drop (Int.toNat (File.offset ⟨[], some 5, 1⟩)) [1, 2, 3], f2, n) ∧
      ((List.drop (Int.toNat (File.offset ⟨[], some 5, 1⟩)) [1, 2, 3]).length : Int) =
        ((3 : Nat) : Int) - 1) ∧
    (∀ sz : Int, ∃ d f2 n, fileRead [1, 2, 3] ⟨[], some 5, 1⟩ (some sz) = some (d, f2, n) ∧
      (d.length : Int) = max 0 (min sz (((3 : Nat) : Int) - 1))) ∧
    (∀ sz : Option Int, min (sz.getD ((3 : Nat) : Int)) (((3 : Nat) : Int) - 1) ≤ 0 →
      fileRead [1, 2, 3] ⟨[], some 5, 1⟩ sz = some ([], ⟨[], some 5, 1⟩, 0)) :=
  c4_read_clamps_and_shortcircuits [1, 2, 3] ⟨[], some 5, 1⟩ 5 rfl (by decide) (by decide)

theorem nlIdx_lt_length {xs : List Nat} {i : Nat} (h : nlIdx xs = some i) :
    i < xs.length := by
  induction xs generalizing i with
  | nil => simp [nlIdx] at h
  | cons b bs ih =>
    by_cases hb : b = 10
    · simp only [nlIdx, if_pos hb, Option.some.injEq] at h
      simp [← h]
    · simp only [nlIdx, if_neg hb, Option.map_eq_some'] at h
      obtain ⟨j, hj, rfl⟩ := h
      simpa using ih hj

theorem nlIdx_append_some {xs : List Nat} {i : Nat} (ys : List Nat)
    (h : nlIdx xs = some i) : nlIdx (xs ++ ys) = some i := by
  induction xs generalizing i with
  | nil => simp [nlIdx] at h
  | cons b bs ih =>
    by_cases hb : b = 10
    · simp only [nlIdx, if_pos hb, Option.some.injEq] at h
      simp [nlIdx, hb, h]
    · simp only [nlIdx, if_neg hb, Option.map_eq_some'] at h
      obtain ⟨j, hj, rfl⟩ := h
      simp [nlIdx, hb, ih hj]

theorem nlIdx_append_none {xs : List Nat} (ys : List Nat)
    (h : nlIdx xs = Option.none) :
    nlIdx (xs ++ ys) = (nlIdx ys).map (· + xs.length) := by
  induction xs with
  | nil =>
    simp only [List.nil_append, List.length_nil]
    cases nlIdx ys with
    | none => simp
    | some j => simp
  | cons b bs ih =>
    by_cases hb : b = 10
    · simp [nlIdx, hb] at h
    · simp only [nlIdx, if_neg hb, Option.map_eq_none'] at h
      simp [nlIdx, hb, ih h, Option.map_map]

theorem readlineAux_step_empty (content : List Nat) (fuel : Nat)
    (line : List Nat) (f f2 : File) (k : Nat)
    (hread : fileRead content f (some 32) = some ([], f2, k)) :
    readlineAux content (fuel + 1) line f = some (line, f2) := by
  simp [readlineAux, hread]

theorem readlineAux_step_nl (content : List Nat) (fuel : Nat)
    (line : List Nat) (f f2 : File) (k : Nat) (chunk : List Nat) (nl : Nat)
    (hread : fileRead content f (some 32) = some (chunk, f2, k))
    (hch : chunk ≠ []) (hnl : nlIdx chunk = some nl) :
    readlineAux content (fuel + 1) line f =
      some (line ++ chunk.take nl,
        { f2 with offset := f2.offset + ((nl : Int) + 1 - chunk.length) }) := by
  simp [readlineAux, hread, hch, hnl]

theorem readlineAux_step_more (content : List Nat) (fuel : Nat)
    (line : List Nat) (f f2 : File) (k : Nat) (chunk : List Nat)
    (hread : fileRead content f (some 32) = some (chunk, f2, k))
    (hch : chunk ≠ []) (hnl : nlIdx chunk = Option.none) :
    readlineAux content (fuel + 1) line f =
      readlineAux content fuel (line ++ chunk) f2 := by
  simp [readlineAux, hread, hch, hnl]

theorem lineOf_some {rest : List Nat} {i : Nat} (h : nlIdx rest = some i) :
    lineOf rest = rest.take i := by
  simp [lineOf, h]

theorem lineOf_none {rest : List Nat} (h : nlIdx rest = Option.none) :
    lineOf rest = rest := by
  simp [lineOf, h]

theorem lineAdv_some {rest : List Nat} {i : Nat} (h : nlIdx rest = some i) :
    lineAdv rest = (i : Int) + 1 := by
  simp [lineAdv, h]

theorem lineAdv_none {rest : List Nat} (h : nlIdx rest = Option.none) :
    lineAdv rest = (rest.length : Int) := by
  simp [lineAdv, h]

theorem readlineAux_eq (content : List Nat) :
    ∀ (fuel : Nat) (f : File) (line : List Nat) (fd : Nat),
    f.fd = some fd → 0 ≤ f.offset → f.offset ≤ (content.length : Int) →
    content.length - f.offset.toNat < fuel →
    readlineAux content fuel line f =
      some (line ++ lineOf (content.drop f.offset.toNat),
        { f with offset := f.offset + lineAdv (content.drop f.offset.toNat) }) := by
  intro fuel
  induction fuel with
  | zero =>
    intro f line fd hfd h0 h1 hfuel
    omega
  | succ n ih =>
    intro f line fd hfd h0 h1 hfuel
    by_cases heof : f.offset = (content.length : Int)
    · have hrest : content.drop f.offset.toNat = [] :=
        List.drop_eq_nil_of_le (by omega)
      have hsc := fileRead_shortcircuit content f (some 32) fd hfd (by simp; omega)
      rw [readlineAux_step_empty content n line f f 0 hsc, hrest,
        @lineOf_none [] rfl, @lineAdv_none [] rfl]
      simp
    · have hlt : f.offset < (content.length : Int) := lt_of_le_of_ne h1 heof
      have hmin : 0 < min 32 ((content.length : Int) - f.offset) := by omega
      have hsub := fileRead_submits content f 32 fd hfd h0 hmin
      have hs1le : min 32 ((content.length : Int) - f.offset) ≤
          (content.length : Int) - f.offset := min_le_right _ _
      set s1 : Int := min 32 ((content.length : Int) - f.offset) with hs1def
      have hchunklen : ((content.drop f.offset.toNat).take s1.toNat).length =
          s1.toNat := by
        rw [List.length_take, List.length_drop]
        omega
      have hchunkne : (content.drop f.offset.toNat).take s1.toNat ≠ [] := by
        intro hemp
        rw [hemp] at hchunklen
        simp at hchunklen
        omega
      have hsplit : (content.drop f.offset.toNat).take s1.toNat ++
          (content.drop f.offset.toNat).drop s1.toNat =
          content.drop f.offset.toNat :=
        List.take_append_drop _ _
      cases hnl : nlIdx ((content.drop f.offset.toNat).take s1.toNat) with
      | some nl =>
        rw [readlineAux_step_nl content n line f _ 1 _ nl hsub hchunkne hnl]
        have hrestnl : nlIdx (content.drop f.offset.toNat) = some nl := by
          rw [← hsplit]
          exact nlIdx_append_some _ hnl
        have hnllt : nl < s1.toNat := by
          have h2 := nlIdx_lt_length hnl
          omega
        have htake : ((content.drop f.offset.toNat).take s1.toNat).take nl =
            (content.drop f.offset.toNat).take nl := by
          rw [List.take_take]
          congr 1
          omega
        rw [htake, lineOf_some hrestnl, lineAdv_some hrestnl, hchunklen]
        refine congrArg some (congrArg₂ Prod.mk rfl (File.ext rfl rfl ?_))
        show f.offset + s1 + ((nl : Int) + 1 - (s1.toNat : Int)) =
          f.offset + ((nl : Int) + 1)
        omega
      | none =>
        rw [readlineAux_step_more content n line f _ 1 _ hsub hchunkne hnl]
        have hrestnl := nlIdx_append_none
          ((content.drop f.offset.toNat).drop s1.toNat) hnl
        rw [hsplit, hchunklen] at hrestnl
        have hih := ih { f with offset := f.offset + s1 }
          (line ++ (content.drop f.offset.toNat).take s1.toNat) fd hfd
          (by show 0 ≤ f.offset + s1; omega)
          (by show f.offset + s1 ≤ (content.length : Int); omega)
          (by show content.length - (f.offset + s1).toNat < n; omega)
        rw [hih]
        have hdrop2 : content.drop
            (({ f with offset := f.offset + s1 } : File)).offset.toNat =
            (content.drop f.offset.toNat).drop s1.toNat := by
          show content.drop (f.offset + s1).toNat =
            (content.drop f.offset.toNat).drop s1.toNat
          rw [List.drop_drop]
          congr 1
          omega
        rw [hdrop2]
        cases hnl2 : nlIdx ((content.drop f.offset.toNat).drop s1.toNat) with
        | some j =>
          rw [hnl2, Option.map_some'] at hrestnl
          rw [lineOf_some hnl2, lineAdv_some hnl2, lineOf_some hrestnl,
            lineAdv_some hrestnl]
          have hlist : (line ++ (content.drop f.offset.toNat).take s1.toNat) ++
              ((content.drop f.offset.toNat).drop s1.toNat).take j =
              line ++ (content.drop f.offset.toNat).take (j + s1.toNat) := by
            rw [List.append_assoc]
            congr 1
            rw [Nat.add_comm j s1.toNat, List.take_add]
          rw [hlist]
          refine congrArg some (congrArg₂ Prod.mk rfl (File.ext rfl rfl ?_))
          show f.offset + s1 + ((j : Int) + 1) =
            f.offset + (((j + s1.toNat : Nat) : Int) + 1)
          omega
        | none =>
          rw [hnl2, Option.map_none'] at hrestnl
          rw [lineOf_none hnl2, lineAdv_none hnl2, lineOf_none hrestnl,
            lineAdv_none hrestnl]
          have hlist : (line ++ (content.drop f.offset.toNat).take s1.toNat) ++
              (content.drop f.offset.toNat).drop s1.toNat =
              line ++ content.drop f.offset.toNat := by
            rw [List.append_assoc, hsplit]
          rw [hlist]
          refine congrArg some (congrArg₂ Prod.mk rfl (File.ext rfl rfl ?_))
          show f.offset + s1 +
              ((((content.drop f.offset.toNat).drop s1.toNat).length : Nat) : Int) =
            f.offset + (((content.drop f.offset.toNat).length : Nat) : Int)
          rw [List.length_drop, List.length_drop]
          omega

/-- `readline` on an open handle with the cursor inside the file: it returns
the bytes of the remaining content before its first newline (or all of it)
and advances the cursor one byte past that newline (or to end of file). -/
theorem readline_eq (content : List Nat) (f : File) (fd : Nat)
    (hfd : f.fd = some fd) (h0 : 0 ≤ f.offset)
    (h1 : f.offset ≤ (content.length : Int)) :
    readline content f =
      some (lineOf (content.drop f.offset.toNat),
        { f with offset := f.offset + lineAdv (content.drop f.offset.toNat) }) := by
  unfold readline
  have h := readlineAux_eq content (content.length + 1) f [] fd hfd h0 h1 (by omega)
  simpa using h

/-- **C5.** `readline()` reads in fixed 32-byte chunks (clamped at end of
file) accumulating a line buffer until (a) a chunk holds a newline — at first
newline index `i` of the remaining content, the prefix before the newline is
returned without its terminator and the offset is corrected backward so the
cursor sits exactly one byte past the newline (`offset + i + 1`) — or (b) a
read returns empty — the accumulated (possibly empty) buffer, the whole
newline-free remainder, is returned and the cursor sits at end of file. -/
theorem c5_readline_newline_and_eof (content : List Nat) (f : File)
    (fd : Nat) (hfd : f.fd = some fd) (h0 : 0 ≤ f.offset)
    (h1 : f.offset ≤ (content.length : Int)) :
    (∀ i, nlIdx (content.drop f.offset.toNat) = some i →
      readline content f = some ((content.drop f.offset.toNat).take i,
        { f with offset := f.offset + (i : Int) + 1 })) ∧
    (nlIdx (content.drop f.offset.toNat) = Option.none →
      readline content f = some (content.drop f.offset.toNat,
        { f with offset := (content.length : Int) })) := by
  constructor
  · intro i hi
    rw [readline_eq content f fd hfd h0 h1, lineOf_some hi, lineAdv_some hi]
    refine congrArg some (congrArg₂ Prod.mk rfl (File.ext rfl rfl ?_))
    show f.offset + ((i : Int) + 1) = f.offset + (i : Int) + 1
    omega
  · intro hi
    rw [readline_eq content f fd hfd h0 h1, lineOf_none hi, lineAdv_none hi]
    refine congrArg some (congrArg₂ Prod.mk rfl (File.ext rfl rfl ?_))
    show f.offset + ((content.drop f.offset.toNat).length : Int) =
      (content.length : Int)
    rw [List.length_drop]
    omega

theorem c5_witness :
    (∀ i, nlIdx [72, 10, 66] = some i →
      readline [72, 10, 66] ⟨[], some 3, 0⟩ =
        some (([72, 10, 66] : List Nat).take i, ⟨[], some 3, 0 + (i : Int) + 1⟩)) ∧
    (nlIdx [72, 10, 66] = Option.none →
      readline [72, 10, 66] ⟨[], some 3, 0⟩ =
        some ([72, 10, 66], ⟨[], some 3, ((3 : Nat) : Int)⟩)) :=
  c5_readline_newline_and_eof [72, 10, 66] ⟨[], some 3, 0⟩ 3 rfl
    (by decide) (by decide)

/-- **C6.** On a handle opened over the 11-byte content `"hello\nworld"`,
line iteration yields exactly `b"hello"` then `b"world"`, and the third
`readline` returns an empty result — which is what ends the iteration. -/
theorem c6_hello_world_lines :
    readline contentHW ⟨[], some 3, 0⟩ =
      some ([104, 101, 108, 108, 111], ⟨[], some 3, 6⟩) ∧
    readline contentHW ⟨[], some 3, 6⟩ =
      some ([119, 111, 114, 108, 100], ⟨[], some 3, 11⟩) ∧
    readline contentHW ⟨[], some 3, 11⟩ = some ([], ⟨[], some 3, 11⟩) ∧
    iterLines contentHW ⟨[], some 3, 0⟩ =
      some [[104, 101, 108, 108, 111], [119, 111, 114, 108, 100]] :=
  ⟨rfl, rfl, rfl, rfl⟩

/-- **C7**, counterexample.  Over the 2-byte content `"\nA"`, the first
`readline` returns an empty result (an empty first line, not end of file);
the very next `readline` without any seek returns `b"A"`, a non-empty
result — so an empty `readline` result is not idempotent as claimed. -/
theorem c7_counterexample :
    readline [10, 65] ⟨[], some 4, 0⟩ = some ([], ⟨[], some 4, 1⟩) ∧
    readline [10, 65] ⟨[], some 4, 1⟩ = some ([65], ⟨[], some 4, 2⟩) ∧
    ([65] : List Nat) ≠ [] :=
  ⟨rfl, rfl, by decide⟩

/-- **C7**, amended.  Only an empty `readline` result produced at end of file
is idempotent: when the cursor is at or past the file size, `readline`
returns an empty result and leaves the handle unchanged, so every subsequent
`readline` without an intervening seek returns empty as well.  (An empty
result produced by a newline at the cursor moves the cursor and the next
call can return a non-empty line.) -/
theorem c7_readline_empty_at_eof_idempotent (content : List Nat) (f : File)
    (fd : Nat) (hfd : f.fd = some fd)
    (heof : (content.length : Int) ≤ f.offset) :
    readline content f = some ([], f) := by
  unfold readline
  have hsc := fileRead_shortcircuit content f (some 32) fd hfd (by simp; omega)
  rw [readlineAux_step_empty content content.length [] f f 0 hsc]

theorem c7_witness :
    readline [5] ⟨[], some 2, 1⟩ = some ([], ⟨[], some 2, 1⟩) :=
  c7_readline_empty_at_eof_idempotent [5] ⟨[], some 2, 1⟩ 2 rfl (by decide)

/-- **C8.** `close()` requires a currently-open descriptor (the call fails
on its assertion otherwise); after a successful close the handle's offset is
zero, its descriptor is cleared to `None` and the path is unchanged, so the
handle satisfies `open`'s precondition again and is reusable for re-open. -/
theorem c8_close_resets_state (f : File) :
    (fileClose f = Option.none ↔ f.fd = Option.none) ∧
    (∀ f2, fileClose f = some f2 →
      f2.offset = 0 ∧ f2.fd = Option.none ∧ f2.fpath = f.fpath ∧
      ∀ newFd, fileOpen f2 newFd = some { f2 with fd := some newFd }) := by
  cases hfd : f.fd with
  | none =>
    refine ⟨by simp [fileClose, hfd], ?_⟩
    intro f2 h
    rw [show fileClose f = Option.none by simp [fileClose, hfd]] at h
    exact absurd h (by simp)
  | some d =>
    refine ⟨by simp [fileClose, hfd], ?_⟩
    intro f2 h
    rw [show fileClose f = some { f with fd := Option.none, offset := 0 } by
      simp [fileClose, hfd]] at h
    have h2 : ({ f with fd := Option.none, offset := 0 } : File) = f2 :=
      Option.some.inj h
    subst h2
    exact ⟨rfl, rfl, rfl, fun newFd => rfl⟩

theorem c8_witness :
    fileClose ⟨[7], some 5, 9⟩ = some ⟨[7], Option.none, 0⟩ ∧
    ((⟨[7], Option.none, 0⟩ : File).offset = 0 ∧
      (⟨[7], Option.none, 0⟩ : File).fd = Option.none ∧
      (⟨[7], Option.none, 0⟩ : File).fpath = [7] ∧
      ∀ newFd, fileOpen ⟨[7], Option.none, 0⟩ newFd =
        some ⟨[7], some newFd, 0⟩) :=
  ⟨rfl, (c8_close_resets_state ⟨[7], some 5, 9⟩).2 ⟨[7], Option.none, 0⟩ rfl⟩

theorem splitNl_ne_nil (xs : List Nat) : splitNl xs ≠ [] := by
  cases xs with
  | nil => simp [splitNl]
  | cons b bs =>
    by_cases hb : b = 10
    · simp [splitNl, hb]
    · simp only [splitNl, if_neg hb]
      cases h : splitNl bs with
      | nil => simp
      | cons l ls => simp

theorem splitNl_of_nlIdx_none {xs : List Nat} (h : nlIdx xs = Option.none) :
    splitNl xs = [xs] := by
  induction xs with
  | nil => rfl
  | cons b bs ih =>
    by_cases hb : b = 10
    · simp [nlIdx, hb] at h
    · simp only [nlIdx, if_neg hb, Option.map_eq_none'] at h
      simp [splitNl, hb, ih h]

theorem splitNl_of_nlIdx_some {xs : List Nat} {i : Nat} (h : nlIdx xs = some i) :
    splitNl xs = xs.take i :: splitNl (xs.drop (i + 1)) := by
  induction xs generalizing i with
  | nil => simp [nlIdx] at h
  | cons b bs ih =>
    by_cases hb : b = 10
    · simp only [nlIdx, if_pos hb, Option.some.injEq] at h
      subst h
      simp [splitNl, hb]
    · simp only [nlIdx, if_neg hb, Option.map_eq_some'] at h
      obtain ⟨j, hj, rfl⟩ := h
      simp [splitNl, hb, ih hj]

theorem splitNl_append_newline (xs ys : List Nat) :
    splitNl (xs ++ 10 :: ys) = splitNl xs ++ splitNl ys := by
  induction xs with
  | nil => simp [splitNl]
  | cons b bs ih =>
    by_cases hb : b = 10
    · simp [splitNl, hb, ih]
    · obtain ⟨l, ls, hls⟩ : ∃ l ls, splitNl bs = l :: ls := by
        cases h : splitNl bs with
        | nil => exact absurd h (splitNl_ne_nil bs)
        | cons l ls => exact ⟨l, ls, rfl⟩
      have hcons : ∀ t : List Nat, splitNl (b :: t) =
          match splitNl t with
          | l2 :: ls2 => (b :: l2) :: ls2
          | [] => [[b]] := by
        intro t
        simp [splitNl, hb]
      rw [List.cons_append, hcons, hcons, ih, hls]
      simp

theorem takeNonEmpty_append_nil (A B : List (List Nat)) :
    takeNonEmpty (A ++ [] :: B) = takeNonEmpty A := by
  induction A with
  | nil => simp [takeNonEmpty]
  | cons a A ih =>
    by_cases ha : a = []
    · simp [takeNonEmpty, ha]
    · simp [takeNonEmpty, ha, ih]

theorem iterLinesAux_step (content : List Nat) (fuel : Nat) (f f2 : File)
    (l : List Nat) (hrd : readline content f = some (l, f2)) :
    iterLinesAux content (fuel + 1) f =
      if l = [] then some [] else (iterLinesAux content fuel f2).map (l :: ·) := by
  simp [iterLinesAux, hrd]

theorem iterLinesAux_eq (content : List Nat) :
    ∀ (fuel : Nat) (f : File) (fd : Nat),
    f.fd = some fd → 0 ≤ f.offset → f.offset ≤ (content.length : Int) →
    content.length - f.offset.toNat < fuel →
    iterLinesAux content fuel f =
      some (takeNonEmpty (splitNl (content.drop f.offset.toNat))) := by
  intro fuel
  induction fuel with
  | zero =>
    intro f fd hfd h0 h1 hfuel
    omega
  | succ n ih =>
    intro f fd hfd h0 h1 hfuel
    rw [iterLinesAux_step content n f _ _ (readline_eq content f fd hfd h0 h1)]
    have hlen3 : (content.drop f.offset.toNat).length =
        content.length - f.offset.toNat := List.length_drop _ _
    cases hnl : nlIdx (content.drop f.offset.toNat) with
    | some i =>
      rw [lineOf_some hnl, lineAdv_some hnl, splitNl_of_nlIdx_some hnl]
      have hlen : i < (content.drop f.offset.toNat).length := nlIdx_lt_length hnl
      by_cases hi : i = 0
      · subst hi
        simp [takeNonEmpty]
      · have htne : (content.drop f.offset.toNat).take i ≠ [] := by
          intro hemp
          have hl := congrArg List.length hemp
          rw [List.length_take] at hl
          simp at hl
          omega
        rw [if_neg htne]
        have hih := ih { f with offset := f.offset + ((i : Int) + 1) } fd hfd
          (by show 0 ≤ f.offset + ((i : Int) + 1); omega)
          (by show f.offset + ((i : Int) + 1) ≤ (content.length : Int); omega)
          (by show content.length - (f.offset + ((i : Int) + 1)).toNat < n; omega)
        have hdrop : content.drop
            (({ f with offset := f.offset + ((i : Int) + 1) } : File)).offset.toNat =
            (content.drop f.offset.toNat).drop (i + 1) := by
          show content.drop (f.offset + ((i : Int) + 1)).toNat =
            (content.drop f.offset.toNat).drop (i + 1)
          rw [List.drop_drop]
          congr 1
          omega
        rw [hdrop] at hih
        rw [hih]
        simp [takeNonEmpty, htne]
    | none =>
      rw [lineOf_none hnl, lineAdv_none hnl, splitNl_of_nlIdx_none hnl]
      by_cases hrest : content.drop f.offset.toNat = []
      · rw [hrest]
        simp [takeNonEmpty]
      · rw [if_neg hrest]
        have hreslen : 0 < (content.drop f.offset.toNat).length :=
          List.length_pos.mpr hrest
        have hih := ih { f with offset := f.offset +
            ((content.drop f.offset.toNat).length : Int) } fd hfd
          (by show 0 ≤ f.offset + ((content.drop f.offset.toNat).length : Int); omega)
          (by show f.offset + ((content.drop f.offset.toNat).length : Int) ≤
              (content.length : Int); omega)
          (by show content.length -
              (f.offset + ((content.drop f.offset.toNat).length : Int)).toNat < n; omega)
        have hdrop : content.drop
            (({ f with offset := f.offset +
              ((content.drop f.offset.toNat).length : Int) } : File)).offset.toNat = [] := by
          show content.drop
            (f.offset + ((content.drop f.offset.toNat).length : Int)).toNat = []
          apply List.drop_eq_nil_of_le
          omega
        rw [hdrop] at hih
        rw [hih]
        simp [splitNl, takeNonEmpty, hrest]

/-- Line iteration over an open handle yields exactly the newline-separated
segments of the remaining content up to (and excluding) the first empty
segment: `takeNonEmpty (splitNl rest)`. -/
theorem iterLines_eq (content : List Nat) (f : File) (fd : Nat)
    (hfd : f.fd = some fd) (h0 : 0 ≤ f.offset)
    (h1 : f.offset ≤ (content.length : Int)) :
    iterLines content f =
      some (takeNonEmpty (splitNl (content.drop f.offset.toNat))) :=
  iterLinesAux_eq content (content.length + 1) f fd hfd h0 h1 (by omega)

/-- **C10.** Line iteration terminates at the first empty line it produces:
over a file whose content holds two consecutive newlines (an empty line)
before the physical end of file, iteration from offset 0 yields at most the
lines before that empty line — the result is independent of everything after
the double newline, so the lines after it are never yielded, and an empty
line mid-file is indistinguishable from end-of-file to iterating callers. -/
theorem c10_iteration_stops_at_empty_line (pre post : List Nat) (f : File)
    (fd : Nat) (hfd : f.fd = some fd) (hoff : f.offset = 0) :
    iterLines (pre ++ 10 :: 10 :: post) f = some (takeNonEmpty (splitNl pre)) := by
  have h := iterLines_eq (pre ++ 10 :: 10 :: post) f fd hfd (by omega) (by omega)
  rw [hoff] at h
  simp only [Int.toNat_zero, List.drop_zero] at h
  rw [splitNl_append_newline] at h
  rw [show splitNl (10 :: post) = [] :: splitNl post by simp [splitNl]] at h
  rw [takeNonEmpty_append_nil] at h
  exact h

theorem c10_witness :
    iterLines ([65] ++ 10 :: 10 :: [66]) ⟨[], some 3, 0⟩ =
      some (takeNonEmpty (splitNl [65])) :=
  c10_iteration_stops_at_empty_line [65] [66] ⟨[], some 3, 0⟩ 3 rfl rfl

end FileModel

end UringFile
